import Mathlib

/-!
Verification of the ingestion engine (`src/ingestion.py`) of the
Smart Retail Supply Chain platform.

The Python source is shallowly embedded over `List Char` / `String`.
Strings are modelled with ASCII semantics: Python's `str.strip()` and the
regex class `\s` are modelled by the six ASCII whitespace characters, and
`str.upper()` by the ASCII case map.  Machine floats never reach the parts
modelled here; pandas `NaN`-able columns are modelled with `Option`.
-/

/-- ASCII whitespace, the model of Python's `str.strip()` character set and
of the regex class `\s` (space, tab, newline, carriage return, vertical
tab, form feed). -/
def isSpc (c : Char) : Bool :=
  c == ' ' || c == '\t' || c == '\n' || c == '\r' || c == Char.ofNat 11 || c == Char.ofNat 12

/-- Characters kept by the punctuation filter apart from whitespace:
uppercase ASCII letters and digits (`A`-`Z`, `0`-`9`). -/
def goodCh (c : Char) : Bool :=
  (65 ≤ c.toNat && c.toNat ≤ 90) || (48 ≤ c.toNat && c.toNat ≤ 57)

/-- The character class kept by `re.sub(r"[^A-Z0-9\s]", "", name)`
(ingestion.py line 122). -/
def keepCh (c : Char) : Bool := goodCh c || isSpc c

/-- Python `str.upper()` on one character (ASCII model). -/
def pyUpper (c : Char) : Char :=
  if 97 ≤ c.toNat ∧ c.toNat ≤ 122 then Char.ofNat (c.toNat - 32) else c

/-- Python `str.strip()`: drop leading and trailing whitespace. -/
def pstrip (l : List Char) : List Char :=
  ((l.dropWhile isSpc).reverse.dropWhile isSpc).reverse

/-- After the lazy `.*?` of `\s*\(.*?\)` stopped: the next character must
be the closing `)`; otherwise (`\n` reached, or end of input) the match
fails. -/
def parenClose : List Char → Option (List Char)
  | d :: v => if d = ')' then some v else none
  | [] => none

/-- After the greedy `\s*` of `\s*\(.*?\)`: the next character must be
`(`, then the lazy `.*?` runs to the first `)` or `\n` (`.` excludes
newlines). -/
def parenOpen : List Char → Option (List Char)
  | c :: t =>
    if c = '(' then parenClose (t.dropWhile (fun c => !(c == ')' || c == '\n')))
    else none
  | [] => none

/-- One attempted match of the regex `\s*\(.*?\)` at the start of `s`
(ingestion.py line 116).  The greedy `\s*` can only succeed by consuming
the whole whitespace run in front of a `(`.  Returns the remainder after
the match when the pattern matches at position 0. -/
def tryParenMatch (s : List Char) : Option (List Char) :=
  parenOpen (s.dropWhile isSpc)

/-- Fuelled scanner for `re.sub(r"\s*\(.*?\)", "", name)`: at each position
either remove a leftmost match and continue after it, or emit one
character and move on. -/
def rpF : Nat → List Char → List Char
  | 0, s => s
  | _ + 1, [] => []
  | fuel + 1, c :: t =>
    match tryParenMatch (c :: t) with
    | some v => rpF fuel v
    | none => c :: rpF fuel t

/-- `re.sub(r"\s*\(.*?\)", "", name)` (ingestion.py line 116).  The fuel
`s.length` dominates the number of scanning steps. -/
def removeParens (s : List Char) : List Char := rpF s.length s

/-- One attempted match of the regex `\s*-\s+.*$` at the start of `s`
(ingestion.py line 119).  The greedy `\s*` can only reach the `-` by
consuming the whole whitespace run in front of it; `\s+` requires at least
one whitespace character after the dash; `.*` cannot cross a newline, and
`$` holds at the end of the string or just before a final newline, so the
match succeeds exactly when the text after the dash's trailing whitespace
contains no newline other than a final one.  Returns what `re.sub` leaves
to the right of the removed match (`[]`, or a kept final newline). -/
def dashCheck : List Char → Option (List Char)
  | c :: d :: r =>
    if c = '-' ∧ isSpc d = true then
      if (((d :: r).dropWhile isSpc).dropLast).contains '\n' then none
      else some (if ((d :: r).dropWhile isSpc).contains '\n' then ['\n'] else [])
    else none
  | _ => none

def dashMatchInfo (s : List Char) : Option (List Char) :=
  dashCheck (s.dropWhile isSpc)

/-- `re.sub(r"\s*-\s+.*$", "", name)` (ingestion.py line 119): scan for the
leftmost match; a match extends to the end of the string, and the possible
leftover (a final newline) admits no further match. -/
def removeDash : List Char → List Char
  | [] => []
  | c :: t =>
    match dashMatchInfo (c :: t) with
    | some res => res
    | none => c :: removeDash t

/-- `re.sub(r"\s+", " ", name)` (ingestion.py line 125): replace every
maximal whitespace run by a single space. -/
def collapseWs : List Char → List Char
  | [] => []
  | [c] => if isSpc c then [' '] else [c]
  | c :: d :: t =>
    if isSpc c && isSpc d then collapseWs (d :: t)
    else (if isSpc c then ' ' else c) :: collapseWs (d :: t)

/-- `name.replace(" ", "_")` on one character (ingestion.py line 128). -/
def sp2us (c : Char) : Char := if c == ' ' then '_' else c

/-- `sku.replace("_", " ")` on one character (ingestion.py line 139). -/
def us2sp (c : Char) : Char := if c == '_' then ' ' else c

/-- Characters of a string literal. -/
def cs (s : String) : List Char := s.data

/-- `PLURAL_MAP` (ingestion.py lines 56-86): explicit plural to singular
overrides, keyed by the provisional SKU. -/
def PLURAL_MAP : List (List Char × List Char) :=
  [ (cs "ONIONS", cs "ONION"), (cs "CARROTS", cs "CARROT"),
    (cs "POTATOES", cs "POTATO"), (cs "TOMATOES", cs "TOMATO"),
    (cs "EGGS", cs "EGG"), (cs "TISSUES", cs "TISSUE"),
    (cs "CHIPS", cs "CHIP"), (cs "PICKLES", cs "PICKLE"),
    (cs "SPONGES", cs "SPONGE"), (cs "MUSHROOMS", cs "MUSHROOM"),
    (cs "BLUEBERRIES", cs "BLUEBERRY"), (cs "STRAWBERRIES", cs "STRAWBERRY"),
    (cs "GRAPES", cs "GRAPE"), (cs "PEAS", cs "PEA"),
    (cs "ANCHOVIES", cs "ANCHOVY"), (cs "SARDINES", cs "SARDINE"),
    (cs "GREEN_BEANS", cs "GREEN_BEAN"), (cs "DIAPERS", cs "DIAPER"),
    (cs "RAZORS", cs "RAZOR"), (cs "EXTENSION_CORDS", cs "EXTENSION_CORD"),
    (cs "LIGHT_BULBS", cs "LIGHT_BULB"), (cs "POWER_STRIPS", cs "POWER_STRIP"),
    (cs "TRASH_BAGS", cs "TRASH_BAG"), (cs "TRASH_CANS", cs "TRASH_CAN"),
    (cs "BATH_TOWELS", cs "BATH_TOWEL"), (cs "PAPER_TOWELS", cs "PAPER_TOWEL"),
    (cs "CLEANING_RAGS", cs "CLEANING_RAG"), (cs "CEREAL_BARS", cs "CEREAL_BAR"),
    (cs "BABY_WIPES", cs "BABY_WIPE") ]

/-- `NO_STRIP_SUFFIXES` (ingestion.py lines 89-93): SKUs whose trailing
`S` must not be stripped. -/
def NO_STRIP_SUFFIXES : List (List Char) :=
  [ cs "CHEESE", cs "RICE", cs "SAUCE", cs "JUICE", cs "GREASE", cs "MOUSSE",
    cs "LETTUCE", cs "PRODUCE", cs "GLUCOSE", cs "PURPOSE", cs "CITRUS",
    cs "ASPARAGUS", cs "COUSCOUS", cs "HUMMUS", cs "OKRAS" ]

/-- Python `sku.endswith(c)` for a one-character suffix. -/
def endsOne (l : List Char) (c : Char) : Bool := l.getLast? == some c

/-- Python `sku.endswith(ab)` for a two-character suffix `[a, b]`. -/
def endsPair (l : List Char) (a b : Char) : Bool :=
  match l.reverse with
  | y :: x :: _ => x == a && y == b
  | _ => false

/-- The depluralization step of `normalize_product_name` (ingestion.py
lines 130-137): explicit override map first, otherwise the guarded
generic trailing-S rule. -/
def depluralize (sku : List Char) : List Char :=
  match PLURAL_MAP.lookup sku with
  | some v => v
  | none =>
    if !NO_STRIP_SUFFIXES.contains sku
        && !(endsPair sku 'S' 'S' || endsPair sku 'U' 'S' || endsPair sku 'I' 'S') then
      if endsOne sku 'S' && decide (3 < sku.length) then sku.dropLast else sku
    else sku

/-- The cleanup pipeline of `normalize_product_name` before SKU formation
(ingestion.py lines 110-125): strip, uppercase, drop parentheticals, drop
dash qualifiers, drop punctuation, collapse whitespace, strip. -/
def cleanupName (l : List Char) : List Char :=
  pstrip (collapseWs ((removeDash (removeParens ((pstrip l).map pyUpper))).filter keepCh))

/-- `normalize_product_name` on character lists (ingestion.py lines
96-140): returns `(normalized_sku, base_product_name)`. -/
def normalizeCore (l : List Char) : List Char × List Char :=
  let sku := depluralize ((cleanupName l).map sp2us)
  (sku, sku.map us2sp)

/-- `normalize_product_name` (ingestion.py lines 96-140). -/
def normalize_product_name (s : String) : String × String :=
  (String.mk (normalizeCore s.data).1, String.mk (normalizeCore s.data).2)

/-- `sku.replace("_", " ")` on strings. -/
def underscoresToSpaces (s : String) : String := String.mk (s.data.map us2sp)

/-! ## Data model of the pipeline stages

pandas `NaN`-able cells are modelled with `Option`; a dataframe is a list
of rows.  `stock_quantity` and `quantity` are modelled as integers, since
only missing-ness and preservation of these columns matter here
(`pd.to_numeric(errors="coerce")` on an already numeric-or-missing column
is the identity). -/

/-- A raw row of `Retail.csv` after column projection and renaming
(ingestion.py lines 153-155). -/
structure RawRetailRow where
  order_id : Option String
  order_date : Option String
  product_list : Option String
  quantity : Option Int
  city : Option String
  store_type : Option String
  online_flag : Option String
deriving DecidableEq

/-- A retail row retained by `load_retail_data` (mandatory fields were
checked, quantity defaulted). -/
structure LoadedRetailRow where
  order_id : Option String
  order_date : Option String
  product_list : Option String
  quantity : Int
  city : Option String
  store_type : Option String
  online_flag : Option String
deriving DecidableEq

/-- `r` is discarded by `load_retail_data` (ingestion.py line 158):
`order_id` or `product_list` is null. -/
def nullCritical (r : RawRetailRow) : Bool :=
  r.order_id.isNone || r.product_list.isNone

/-- `load_retail_data` (ingestion.py lines 147-169), minus file I/O:
drop rows with null `order_id`/`product_list` (returning the discard
count that the code prints), default `quantity` to 1. -/
def load_retail_data (rows : List RawRetailRow) : List LoadedRetailRow × Nat :=
  ( (rows.filter (fun r => !nullCritical r)).map (fun r =>
      { order_id := r.order_id, order_date := r.order_date,
        product_list := r.product_list, quantity := r.quantity.getD 1,
        city := r.city, store_type := r.store_type, online_flag := r.online_flag }),
    (rows.filter nullCritical).length )

/-- An arbitrary Python value as an element of a parsed product list; the
code uses only its truthiness (the `if p` filter) and its `str()` form
(ingestion.py line 183). -/
structure PyElem where
  truthy : Bool
  str : String
deriving DecidableEq

/-- Outcome of `ast.literal_eval` on a product field: a list value, a
non-list value, or a `ValueError`/`SyntaxError`.  `ast.literal_eval` is a
Python standard library call, modelled as an oracle parameter. -/
inductive LiteralParse where
  | isList (elems : List PyElem)
  | nonList
  | failed
deriving DecidableEq

/-- Python `str.strip()` on strings. -/
def pyStrip (s : String) : String := String.mk (pstrip s.data)

/-- `parse_product_list` (ingestion.py lines 176-186): `NaN` gives `[]`;
a parsed list keeps the truthy elements, stringified and stripped;
otherwise the whole original field, stripped, is the single product. -/
def parse_product_list (ev : String → LiteralParse) (val : Option String) : List String :=
  match val with
  | none => []
  | some s =>
    match ev s with
    | .isList es => (es.filter (·.truthy)).map (fun e => pyStrip e.str)
    | .nonList => [pyStrip s]
    | .failed => [pyStrip s]

/-- A retail row after explosion; `product_name = none` models the `NaN`
that pandas `explode` produces for an empty list. -/
structure ExplodedRow where
  order_id : Option String
  order_date : Option String
  product_name : Option String
  quantity : Int
  city : Option String
  store_type : Option String
  online_flag : Option String
deriving DecidableEq

/-- `df.explode` on one row: one output row per parsed product, or a
single `NaN`-product row when the parsed list is empty (pandas explode
semantics). -/
def explodeRow (ev : String → LiteralParse) (r : LoadedRetailRow) : List ExplodedRow :=
  match parse_product_list ev r.product_list with
  | [] => [{ order_id := r.order_id, order_date := r.order_date,
             product_name := none, quantity := r.quantity, city := r.city,
             store_type := r.store_type, online_flag := r.online_flag }]
  | ps => ps.map (fun p =>
      { order_id := r.order_id, order_date := r.order_date,
        product_name := some p, quantity := r.quantity, city := r.city,
        store_type := r.store_type, online_flag := r.online_flag })

/-- pandas `astype(str)` on a possibly-`NaN` string cell: `NaN` prints as
`"nan"`. -/
def pdStr : Option String → String
  | none => "nan"
  | some s => s

/-- `explode_retail_products` (ingestion.py lines 172-196): explode each
row, then keep the rows whose `astype(str)`-rendered product name is
nonempty after stripping. -/
def explode_retail_products (ev : String → LiteralParse) (rows : List LoadedRetailRow) :
    List ExplodedRow :=
  (rows.flatMap (explodeRow ev)).filter (fun r => pyStrip (pdStr r.product_name) != "")

/-- A raw row of `Warehouse.csv` after column projection and renaming
(ingestion.py lines 205-207). -/
structure RawWarehouseRow where
  product_name : Option String
  stock_quantity : Option Int
deriving DecidableEq

/-- `load_warehouse_data` (ingestion.py lines 199-220), minus file I/O:
drop rows with null `product_name` (returning the printed discard count);
`stock_quantity` stays missing-as-missing. -/
def load_warehouse_data (rows : List RawWarehouseRow) :
    List RawWarehouseRow × Nat :=
  (rows.filter (fun r => !r.product_name.isNone),
   (rows.filter (fun r => r.product_name.isNone)).length)

/-- A retail row with its normalization columns (ingestion.py lines
237-239). -/
structure NormalizedRetailRow where
  order_id : Option String
  order_date : Option String
  product_name : Option String
  normalized_sku : String
  base_product_name : String
  quantity : Int
  city : Option String
  store_type : Option String
  online_flag : Option String
deriving DecidableEq

/-- A warehouse row with its normalization columns (ingestion.py lines
242-244). -/
structure NormalizedWarehouseRow where
  product_name : Option String
  normalized_sku : String
  base_product_name : String
  stock_quantity : Option Int
deriving DecidableEq

/-- `normalize_product_name` applied to one retail cell: a `NaN` product
name (a float) has no `.strip()`, so the `apply` raises
`AttributeError`. -/
def normalizeRetailRow (r : ExplodedRow) : Except String NormalizedRetailRow :=
  match r.product_name with
  | none => .error "AttributeError"
  | some p =>
    .ok { order_id := r.order_id, order_date := r.order_date,
          product_name := r.product_name,
          normalized_sku := (normalize_product_name p).1,
          base_product_name := (normalize_product_name p).2,
          quantity := r.quantity, city := r.city,
          store_type := r.store_type, online_flag := r.online_flag }

/-- `normalize_product_name` applied to one warehouse cell. -/
def normalizeWarehouseRow (r : RawWarehouseRow) : Except String NormalizedWarehouseRow :=
  match r.product_name with
  | none => .error "AttributeError"
  | some p =>
    .ok { product_name := r.product_name,
          normalized_sku := (normalize_product_name p).1,
          base_product_name := (normalize_product_name p).2,
          stock_quantity := r.stock_quantity }

/-- pandas `drop_duplicates` keep-first, generalized over the key of the
comparison (`key = id` models full-row deduplication, `key = Prod.fst`
models `subset=["normalized_sku"]`); `seen` accumulates the keys already
kept. -/
def dkAux {α β : Type} [DecidableEq β] (key : α → β) (seen : List β) :
    List α → List α
  | [] => []
  | a :: t =>
    if key a ∈ seen then dkAux key seen t
    else a :: dkAux key (key a :: seen) t

/-- `drop_duplicates()` keep-first on whole values. -/
def dropDup {α : Type} [DecidableEq α] (l : List α) : List α := dkAux id [] l

/-- The products master table of `apply_normalization` (ingestion.py
lines 246-251): deduplicate each source's `(sku, base_name)` pairs,
concatenate retail before warehouse, then deduplicate on the SKU keeping
the first occurrence. -/
def buildProducts (rp wp : List (String × String)) : List (String × String) :=
  dkAux Prod.fst [] (dropDup rp ++ dropDup wp)

/-- `apply_normalization` (ingestion.py lines 227-257): normalize both
sides and build the products master table.  Raises (propagates an
exception) if any product cell is `NaN`. -/
def apply_normalization (retail : List ExplodedRow) (wh : List RawWarehouseRow) :
    Except String
      (List NormalizedRetailRow × List NormalizedWarehouseRow × List (String × String)) :=
  match retail.mapM normalizeRetailRow with
  | .error e => .error e
  | .ok rn =>
    match wh.mapM normalizeWarehouseRow with
    | .error e => .error e
    | .ok wn =>
      .ok (rn, wn,
        buildProducts (rn.map (fun r => (r.normalized_sku, r.base_product_name)))
          (wn.map (fun r => (r.normalized_sku, r.base_product_name))))

/-- A retail row carrying the `warehouse_match` flag (ingestion.py lines
268-270); the code stores the strings `"TRUE"`/`"FALSE"`. -/
structure MatchedRetailRow where
  order_id : Option String
  order_date : Option String
  product_name : Option String
  normalized_sku : String
  base_product_name : String
  quantity : Int
  city : Option String
  store_type : Option String
  online_flag : Option String
  warehouse_match : String
deriving DecidableEq

/-- Forget the `warehouse_match` column. -/
def dropFlag (r : MatchedRetailRow) : NormalizedRetailRow :=
  { order_id := r.order_id, order_date := r.order_date,
    product_name := r.product_name, normalized_sku := r.normalized_sku,
    base_product_name := r.base_product_name, quantity := r.quantity,
    city := r.city, store_type := r.store_type, online_flag := r.online_flag }

/-- `match_retail_to_warehouse` (ingestion.py lines 260-277): a pure
set-membership test against the warehouse SKU set.  The percentage prints
on an empty frame compute numpy `0/0 = nan` with a warning, not an
exception, so the function is total. -/
def match_retail_to_warehouse (rs : List NormalizedRetailRow)
    (ws : List NormalizedWarehouseRow) : List MatchedRetailRow :=
  rs.map (fun r =>
    { order_id := r.order_id, order_date := r.order_date,
      product_name := r.product_name, normalized_sku := r.normalized_sku,
      base_product_name := r.base_product_name, quantity := r.quantity,
      city := r.city, store_type := r.store_type, online_flag := r.online_flag,
      warehouse_match :=
        if r.normalized_sku ∈ ws.map (fun w => w.normalized_sku) then "TRUE" else "FALSE" })

/-- A row of the `retail_transactions` table (ingestion.py lines 300-312,
329-334): `order_id` passes through `astype(str)`. -/
structure RetailOutRow where
  order_id : String
  order_date : Option String
  product_name : Option String
  normalized_sku : String
  quantity : Int
  city : Option String
  store_type : Option String
  online_flag : Option String
  warehouse_match : String
deriving DecidableEq

/-- Column selection and `astype(str)` for the retail insert
(ingestion.py lines 330-334). -/
def projRetail (r : MatchedRetailRow) : RetailOutRow :=
  { order_id := pdStr r.order_id, order_date := r.order_date,
    product_name := r.product_name, normalized_sku := r.normalized_sku,
    quantity := r.quantity, city := r.city, store_type := r.store_type,
    online_flag := r.online_flag, warehouse_match := r.warehouse_match }

/-- A row of the `warehouse_inventory` table (ingestion.py lines
314-320, 337). -/
structure WarehouseOutRow where
  product_name : Option String
  normalized_sku : String
  stock_quantity : Option Int
deriving DecidableEq

/-- Column selection for the warehouse insert (ingestion.py line 337). -/
def projWarehouse (r : NormalizedWarehouseRow) : WarehouseOutRow :=
  { product_name := r.product_name, normalized_sku := r.normalized_sku,
    stock_quantity := r.stock_quantity }

/-- The SQLite database: the three tables, each a list of rows in insert
order. -/
structure DBState where
  retail_transactions : List RetailOutRow
  warehouse_inventory : List WarehouseOutRow
  products : List (String × String)
deriving DecidableEq

/-- `write_to_database` (ingestion.py lines 284-355): drop the previous
tables, recreate them, and append every prepared row in order with
`to_sql`.  The function is synchronous: it returns only after all inserts
and the commit. -/
def write_to_database (db : DBState) (rs : List MatchedRetailRow)
    (ws : List NormalizedWarehouseRow) (ps : List (String × String)) : DBState :=
  let _ := db
  { retail_transactions := rs.map projRetail,
    warehouse_inventory := ws.map projWarehouse,
    products := ps }

/-- pandas `Series.nunique`: the number of distinct values. -/
def nuniqueStr (l : List String) : Nat := (dropDup l).length

/-- pandas `Series.nunique` on a `NaN`-able column: `NaN` is excluded. -/
def nuniqueOptStr (l : List (Option String)) : Nat :=
  (dropDup (l.filterMap id)).length

/-- Insert into a `≤`-sorted list of strings. -/
def insertSorted (x : String) : List String → List String
  | [] => [x]
  | y :: t => if x ≤ y then x :: y :: t else y :: insertSorted x t

/-- Python `sorted` on a list of distinct strings. -/
def sortStr (l : List String) : List String := l.foldr insertSorted []

/-- The structured run summary (ingestion.py lines 395-414); the constant
`database` path field is omitted. -/
structure Summary where
  status : String
  retail_total_exploded_rows : Nat
  retail_unique_products : Nat
  retail_unique_skus : Nat
  wh_total_rows : Nat
  wh_unique_products : Nat
  wh_unique_skus : Nat
  matched_skus : Nat
  unmatched_skus : Nat
  unmatched_list : List String
  products_catalog_size : Nat
deriving DecidableEq

/-- The summary `main` assembles (ingestion.py lines 386-416). -/
def buildSummary (rs : List MatchedRetailRow) (ws : List NormalizedWarehouseRow)
    (ps : List (String × String)) : Summary :=
  let retailSkus := dropDup (rs.map (fun r => r.normalized_sku))
  let whSkus := ws.map (fun w => w.normalized_sku)
  { status := "SUCCESS",
    retail_total_exploded_rows := rs.length,
    retail_unique_products := nuniqueOptStr (rs.map (fun r => r.product_name)),
    retail_unique_skus := nuniqueStr (rs.map (fun r => r.normalized_sku)),
    wh_total_rows := ws.length,
    wh_unique_products := nuniqueOptStr (ws.map (fun w => w.product_name)),
    wh_unique_skus := nuniqueStr whSkus,
    matched_skus := (retailSkus.filter (fun s => whSkus.contains s)).length,
    unmatched_skus := (retailSkus.filter (fun s => !whSkus.contains s)).length,
    unmatched_list := sortStr (retailSkus.filter (fun s => !whSkus.contains s)),
    products_catalog_size := ps.length }

/-- `main` (ingestion.py lines 362-420): the sequential pipeline.  File
reading is replaced by the already-projected raw rows; `ast.literal_eval`
by the oracle `ev`.  An uncaught exception in a stage aborts the run. -/
def mainPipeline (ev : String → LiteralParse) (rr : List RawRetailRow)
    (wr : List RawWarehouseRow) : Except String (DBState × Summary) :=
  let retail0 := (load_retail_data rr).1
  let retail1 := explode_retail_products ev retail0
  let wh0 := (load_warehouse_data wr).1
  match apply_normalization retail1 wh0 with
  | .error e => .error e
  | .ok (rn, wn, ps) =>
    let rm := match_retail_to_warehouse rn wn
    let db := write_to_database ⟨[], [], []⟩ rm wn ps
    .ok (db, buildSummary rm wn ps)

deriving instance DecidableEq for Except

/-! ## Helper lemmas about keep-first deduplication -/

theorem dkAux_map_key {α β : Type} [DecidableEq β] (key : α → β) (seen : List β) :
    ∀ l : List α, (dkAux key seen l).map key = dkAux id seen (l.map key) := by
  intro l
  induction l generalizing seen with
  | nil => rfl
  | cons a t ih =>
    by_cases h : key a ∈ seen
    · simp [dkAux, h, ih]
    · simp [dkAux, h, ih]

theorem dkAux_cons_mem {α β : Type} [DecidableEq β] (key : α → β) (seen : List β)
    (a : α) (t : List α) (h : key a ∈ seen) :
    dkAux key seen (a :: t) = dkAux key seen t := by
  simp [dkAux, h]

theorem dkAux_cons_not_mem {α β : Type} [DecidableEq β] (key : α → β) (seen : List β)
    (a : α) (t : List α) (h : key a ∉ seen) :
    dkAux key seen (a :: t) = a :: dkAux key (key a :: seen) t := by
  simp [dkAux, h]

theorem mem_dkAux_id {α : Type} [DecidableEq α] (l : List α) :
    ∀ (seen : List α) (x : α), x ∈ dkAux id seen l ↔ x ∈ l ∧ x ∉ seen := by
  induction l with
  | nil => intro seen x; simp [dkAux]
  | cons a t ih =>
    intro seen x
    by_cases h : a ∈ seen
    · rw [dkAux_cons_mem id seen a t h, ih]
      simp only [List.mem_cons]
      constructor
      · rintro ⟨hx, hs⟩; exact ⟨Or.inr hx, hs⟩
      · rintro ⟨hx | hx, hs⟩
        · subst hx; exact absurd h hs
        · exact ⟨hx, hs⟩
    · rw [dkAux_cons_not_mem id seen a t h]
      simp only [List.mem_cons, ih]
      constructor
      · rintro (rfl | ⟨hx, hs⟩)
        · exact ⟨Or.inl rfl, h⟩
        · exact ⟨Or.inr hx, fun hc => hs (Or.inr hc)⟩
      · rintro ⟨rfl | hx, hs⟩
        · exact Or.inl rfl
        · by_cases hxa : x = a
          · exact Or.inl hxa
          · refine Or.inr ⟨hx, fun hc => ?_⟩
            rcases hc with h1 | h2
            · exact hxa h1
            · exact hs h2

theorem dkAux_id_nodup {α : Type} [DecidableEq α] (l : List α) :
    ∀ seen : List α, (dkAux id seen l).Nodup := by
  induction l with
  | nil => intro seen; simp [dkAux]
  | cons a t ih =>
    intro seen
    by_cases h : a ∈ seen
    · rw [dkAux_cons_mem id seen a t h]; exact ih seen
    · rw [dkAux_cons_not_mem id seen a t h, List.nodup_cons]
      refine ⟨fun hmem => ?_, ih (a :: seen)⟩
      exact ((mem_dkAux_id t (a :: seen) a).mp hmem).2 (List.mem_cons_self a seen)

theorem dropDup_toFinset {α : Type} [DecidableEq α] (l : List α) :
    (dropDup l).toFinset = l.toFinset := by
  ext x
  simp [dropDup, List.mem_toFinset, mem_dkAux_id]

theorem dropDup_length_eq_card {α : Type} [DecidableEq α] (l : List α) :
    (dropDup l).length = l.toFinset.card := by
  rw [← dropDup_toFinset]
  exact (List.toFinset_card_of_nodup (dkAux_id_nodup l [])).symm

theorem lookup_dkAux_fst (l : List (String × String)) (k : String) :
    ∀ seen : List String, k ∉ seen →
      (dkAux Prod.fst seen l).lookup k = l.lookup k := by
  induction l with
  | nil => intro seen _; rfl
  | cons p t ih =>
    intro seen hk
    obtain ⟨a, b⟩ := p
    by_cases h : a ∈ seen
    · have hka : (k == a) = false := by
        refine beq_eq_false_iff_ne.mpr ?_
        rintro rfl; exact hk h
      rw [dkAux_cons_mem Prod.fst seen (a, b) t h, ih seen hk]
      simp [List.lookup, hka]
    · rw [dkAux_cons_not_mem Prod.fst seen (a, b) t h]
      by_cases hka : k = a
      · subst hka; simp [List.lookup]
      · have hb : (k == a) = false := beq_eq_false_iff_ne.mpr hka
        simp only [List.lookup, hb]
        refine ih (a :: seen) fun hc => ?_
        rcases List.mem_cons.mp hc with h1 | h2
        · exact hka h1
        · exact hk h2

theorem lookup_dkAux_id (l : List (String × String)) (k : String) :
    ∀ seen : List (String × String), (∀ p ∈ seen, p.1 ≠ k) →
      (dkAux id seen l).lookup k = l.lookup k := by
  induction l with
  | nil => intro seen _; rfl
  | cons p t ih =>
    intro seen hseen
    obtain ⟨a, b⟩ := p
    by_cases h : (a, b) ∈ seen
    · have hka : (k == a) = false := by
        refine beq_eq_false_iff_ne.mpr ?_
        rintro rfl; exact hseen (k, b) h rfl
      rw [dkAux_cons_mem id seen (a, b) t h, ih seen hseen]
      simp [List.lookup, hka]
    · rw [dkAux_cons_not_mem id seen (a, b) t h]
      by_cases hka : k = a
      · subst hka; simp [List.lookup]
      · have hb : (k == a) = false := beq_eq_false_iff_ne.mpr hka
        simp only [List.lookup, hb]
        refine ih ((a, b) :: seen) fun q hq => ?_
        rcases List.mem_cons.mp hq with h1 | h2
        · subst h1; exact fun hc => hka hc.symm
        · exact hseen q h2

theorem lookup_append (A B : List (String × String)) (k : String) :
    (A ++ B).lookup k =
      match A.lookup k with
      | some v => some v
      | none => B.lookup k := by
  induction A with
  | nil => simp [List.lookup]
  | cons p t ih =>
    cases p with
    | mk a b =>
      by_cases hka : k = a
      · subst hka; simp [List.lookup]
      · have hne : (k == a) = false := by simpa using hka
        simp [List.lookup, hne, ih]

theorem length_filter_not_add {α : Type} (p : α → Bool) (l : List α) :
    (l.filter (fun a => !p a)).length + (l.filter p).length = l.length := by
  induction l with
  | nil => rfl
  | cons a t ih =>
    by_cases h : p a
    · simp [List.filter, h, ← ih]; omega
    · simp only [List.filter, h, Bool.not_false]
      simp [h, ← ih]; omega

/-! ## Claim theorems: examples, catalog, matcher, writer, summary -/

/-- C3: the five documented normalization examples
(spec §8; ingestion.py lines 96-140). -/
theorem normalize_product_name_examples :
    normalize_product_name "onions" = ("ONION", "ONION") ∧
    normalize_product_name "Egg (Turkey)" = ("EGG", "EGG") ∧
    normalize_product_name "Soap - Lemon" = ("SOAP", "SOAP") ∧
    normalize_product_name "Hair Gel" = ("HAIR_GEL", "HAIR GEL") ∧
    normalize_product_name "Tea (Jasmine)" = ("TEA", "TEA") := by
  refine ⟨?_, ?_, ?_, ?_, ?_⟩ <;> decide

/-- C4 (counterexample): idempotence fails on `"AB S"`.  Its SKU is
`"AB_S"`, the generic rule strips the trailing `S` leaving the SKU
`"AB_"` whose base name `"AB "` re-normalizes to `("AB", "AB")`. -/
theorem normalize_idempotent_counterexample :
    normalize_product_name ((normalize_product_name "AB S").2) ≠
      normalize_product_name "AB S" := by decide

theorem normalize_product_name_fst (s : String) :
    (normalize_product_name s).1 = String.mk (normalizeCore s.data).1 := rfl

theorem normalize_product_name_snd (s : String) :
    (normalize_product_name s).2 = String.mk (normalizeCore s.data).2 := rfl

theorem normalizeCore_snd_eq (l : List Char) :
    (normalizeCore l).2 = (normalizeCore l).1.map us2sp := by
  simp only [normalizeCore]

theorem data_mk (l : List Char) : (String.mk l).data = l := rfl

theorem base_name_eq (x : String) :
    (normalize_product_name x).2 = underscoresToSpaces (normalize_product_name x).1 := by
  rw [underscoresToSpaces, normalize_product_name_fst, normalize_product_name_snd,
    data_mk, normalizeCore_snd_eq]

/-- C10: `base_product_name` is the SKU with underscores replaced by
spaces (ingestion.py line 139), so two inputs with the same SKU always
carry the same base display name. -/
theorem base_name_function_of_sku :
    (∀ x : String,
      (normalize_product_name x).2 = underscoresToSpaces (normalize_product_name x).1) ∧
    (∀ x y : String,
      (normalize_product_name x).1 = (normalize_product_name y).1 →
      (normalize_product_name x).2 = (normalize_product_name y).2) := by
  refine ⟨base_name_eq, fun x y h => ?_⟩
  rw [base_name_eq x, base_name_eq y, h]

/-- Witness for `base_name_function_of_sku` at `"onions"`/`"Onion"`. -/
theorem base_name_function_of_sku_witness :
    (normalize_product_name "onions").1 = (normalize_product_name "Onion").1 ∧
    (normalize_product_name "onions").2 = (normalize_product_name "Onion").2 :=
  ⟨by decide, base_name_function_of_sku.2 "onions" "Onion" (by decide)⟩

/-- C2: `match_retail_to_warehouse` (ingestion.py lines 260-277) keeps
every retail row, in order and unchanged apart from the new flag; the
flag is `"TRUE"` exactly on membership of the row's SKU in the warehouse
SKU set; an empty warehouse set flags every row `"FALSE"`; the function
is total (the percentage prints divide numpy integers, yielding `nan`
rather than raising on an empty frame). -/
theorem match_retail_to_warehouse_spec :
    ∀ (rs : List NormalizedRetailRow) (ws : List NormalizedWarehouseRow),
      ((match_retail_to_warehouse rs ws).map dropFlag = rs) ∧
      ((match_retail_to_warehouse rs ws).map (fun r => r.warehouse_match) =
        rs.map (fun r =>
          if r.normalized_sku ∈ ws.map (fun w => w.normalized_sku)
          then "TRUE" else "FALSE")) ∧
      (ws = [] →
        ((match_retail_to_warehouse rs ws).all
          (fun r => r.warehouse_match == "FALSE")) = true) := by
  intro rs ws
  refine ⟨?_, ?_, ?_⟩
  · simp only [match_retail_to_warehouse, List.map_map]
    exact List.map_id rs
  · simp [match_retail_to_warehouse, List.map_map]
  · rintro rfl
    simp [match_retail_to_warehouse, List.all_eq_true]

/-- Witness for `match_retail_to_warehouse_spec`: one retail row against
an empty warehouse. -/
theorem match_retail_to_warehouse_spec_witness :
    ((match_retail_to_warehouse
        [{ order_id := some "1", order_date := none, product_name := some "Milk",
           normalized_sku := "MILK", base_product_name := "MILK", quantity := 1,
           city := none, store_type := none, online_flag := none }] []).all
      (fun r => r.warehouse_match == "FALSE")) = true :=
  (match_retail_to_warehouse_spec
    [{ order_id := some "1", order_date := none, product_name := some "Milk",
       normalized_sku := "MILK", base_product_name := "MILK", quantity := 1,
       city := none, store_type := none, online_flag := none }] []).2.2 rfl

/-- C6: the products master table (ingestion.py lines 246-251) has
pairwise-distinct SKU keys, is no larger than the distinct retail SKUs
plus the distinct warehouse SKUs, and keeps the first-seen base name with
retail pairs considered before warehouse pairs. -/
theorem product_catalog_spec :
    ∀ rp wp : List (String × String),
      ((buildProducts rp wp).map Prod.fst).Nodup ∧
      (buildProducts rp wp).length ≤
        nuniqueStr (rp.map Prod.fst) + nuniqueStr (wp.map Prod.fst) ∧
      (∀ k : String, (buildProducts rp wp).lookup k = (rp ++ wp).lookup k) := by
  intro rp wp
  refine ⟨?_, ?_, ?_⟩
  · rw [buildProducts, dkAux_map_key]
    exact dkAux_id_nodup _ []
  · have hlen : (buildProducts rp wp).length =
        ((dropDup rp ++ dropDup wp).map Prod.fst).toFinset.card := by
      calc (buildProducts rp wp).length
          = ((buildProducts rp wp).map Prod.fst).length := (List.length_map _ _).symm
        _ = (dkAux id [] ((dropDup rp ++ dropDup wp).map Prod.fst)).length := by
            rw [buildProducts, dkAux_map_key]
        _ = ((dropDup rp ++ dropDup wp).map Prod.fst).toFinset.card :=
            dropDup_length_eq_card _
    have hset : ((dropDup rp ++ dropDup wp).map Prod.fst).toFinset =
        (rp.map Prod.fst).toFinset ∪ (wp.map Prod.fst).toFinset := by
      ext x
      simp only [List.mem_toFinset, List.map_append, List.mem_append, Finset.mem_union,
        List.mem_map, dropDup, mem_dkAux_id, List.not_mem_nil, not_false_iff, and_true]
    rw [hlen, hset, nuniqueStr, nuniqueStr, dropDup_length_eq_card, dropDup_length_eq_card]
    exact Finset.card_union_le _ _
  · intro k
    rw [buildProducts]
    simp only [dropDup]
    rw [lookup_dkAux_fst _ k [] (List.not_mem_nil k), lookup_append,
      lookup_dkAux_id rp k [] (fun p hp => absurd hp (List.not_mem_nil p)),
      lookup_dkAux_id wp k [] (fun p hp => absurd hp (List.not_mem_nil p)),
      lookup_append]

/-- C1: `write_to_database` (ingestion.py lines 284-355) stores exactly
the matched record sequence, one row per record and in the same relative
order, regardless of any previous database contents (tables are dropped
and recreated); and whenever the pipeline completes (`mainPipeline`
returns `ok`, the model of `main` reaching its summary), the transactions
table holds all of the matched records — the write step is synchronous,
so the run is finished only after the last insert. -/
theorem write_to_database_exactly_once_in_order :
    (∀ (db : DBState) (rs : List MatchedRetailRow)
        (ws : List NormalizedWarehouseRow) (ps : List (String × String)),
      (write_to_database db rs ws ps).retail_transactions = rs.map projRetail ∧
      (write_to_database db rs ws ps).retail_transactions.length = rs.length ∧
      ∀ i : Nat, (write_to_database db rs ws ps).retail_transactions[i]? =
        (rs[i]?).map projRetail) ∧
    (∀ (ev : String → LiteralParse) (rr : List RawRetailRow)
        (wr : List RawWarehouseRow) (out : DBState × Summary),
      mainPipeline ev rr wr = .ok out →
      out.2.retail_total_exploded_rows = out.1.retail_transactions.length) := by
  constructor
  · intro db rs ws ps
    refine ⟨rfl, by simp [write_to_database], ?_⟩
    intro i
    simp [write_to_database]
  · intro ev rr wr out h
    rw [mainPipeline] at h
    cases hn : apply_normalization (explode_retail_products ev (load_retail_data rr).1)
        (load_warehouse_data wr).1 with
    | error e => rw [hn] at h; cases h
    | ok trip =>
      obtain ⟨rn, wn, ps⟩ := trip
      rw [hn] at h
      cases h
      simp [buildSummary, write_to_database]

/-- Concrete run used by several witnesses: one retail row `"Milk"`,
`ast.literal_eval` failing on it (it is not a literal). -/
def evFail : String → LiteralParse := fun _ => .failed

/-- A single valid raw retail row. -/
def rowMilk : RawRetailRow :=
  { order_id := some "1", order_date := none, product_list := some "Milk",
    quantity := none, city := none, store_type := none, online_flag := none }

/-- The result of the concrete `"Milk"` run. -/
def outMilk : DBState × Summary :=
  match mainPipeline evFail [rowMilk] [] with
  | .ok o => o
  | .error _ => (⟨[], [], []⟩, buildSummary [] [] [])

/-- Witness for `write_to_database_exactly_once_in_order` on the
concrete `"Milk"` run. -/
theorem write_to_database_exactly_once_in_order_witness :
    mainPipeline evFail [rowMilk] [] = .ok outMilk ∧
    outMilk.2.retail_total_exploded_rows = outMilk.1.retail_transactions.length :=
  ⟨by decide,
   write_to_database_exactly_once_in_order.2 evFail [rowMilk] [] outMilk (by decide)⟩

/-- C7 (failing input): a retail row whose product field is the literal
`"[]"`.  `ast.literal_eval` yields the empty list, every element (there
are none) is dropped, and pandas `explode` then emits one row whose
`product_name` is `NaN`; `astype(str)` renders it `"nan"`, so the
empty-name filter keeps it, and `apply_normalization` later crashes with
`AttributeError` on the float.  The claim instead requires zero records
(one per non-empty element) and a counted drop. -/
def evEmptyList : String → LiteralParse :=
  fun s => if s == "[]" then .isList [] else .failed

/-- The loaded retail row with the empty-list product field. -/
def rowEmptyList : LoadedRetailRow :=
  { order_id := some "T1", order_date := none, product_list := some "[]",
    quantity := 1, city := none, store_type := none, online_flag := none }

/-- C7: evaluating `explode_retail_products` at the failing input: the
empty parsed list yields one retained `NaN`-product record instead of
zero records, and the subsequent normalization stage fails on it. -/
theorem explode_empty_list_bug :
    explode_retail_products evEmptyList [rowEmptyList] =
      [{ order_id := some "T1", order_date := none, product_name := none,
         quantity := 1, city := none, store_type := none, online_flag := none }] ∧
    apply_normalization (explode_retail_products evEmptyList [rowEmptyList]) [] =
      .error "AttributeError" := by
  refine ⟨?_, ?_⟩ <;> decide

/-- A raw retail row discarded by the loader (null `order_id`). -/
def rowNoOrder : RawRetailRow :=
  { order_id := none, order_date := none, product_list := some "Eggs",
    quantity := none, city := none, store_type := none, online_flag := none }

/-- A warehouse row matching the `"Milk"` SKU. -/
def rowWhMilk : RawWarehouseRow :=
  { product_name := some "Milk", stock_quantity := some 5 }

/-- C8 (counterexample): a run whose input contains a discarded row
(null `order_id`) produces exactly the same database and structured
summary as the run without that row, and in particular the same summary,
although its loader discard count is 1: no counter of the reported
summary reflects the discard. -/
theorem summary_omits_discards :
    mainPipeline evFail [rowMilk, rowNoOrder] [rowWhMilk] =
      mainPipeline evFail [rowMilk] [rowWhMilk] ∧
    (load_retail_data [rowMilk, rowNoOrder]).2 = 1 ∧
    (load_retail_data [rowMilk]).2 = 0 := by
  refine ⟨?_, ?_, ?_⟩ <;> decide

/-- C8 (amended): the loaders do count their row-level discards — the
retained rows plus the discard count partition the input, and the count
is exactly the number of rows missing a mandatory field — but the counts
are only printed, not included in the final structured summary (see
`summary_omits_discards`), and the explosion stage's empty-name drops are
not counted at all. -/
theorem loader_discards_counted :
    ∀ (rr : List RawRetailRow) (wr : List RawWarehouseRow),
      (load_retail_data rr).1.length + (load_retail_data rr).2 = rr.length ∧
      (load_retail_data rr).2 = (rr.filter nullCritical).length ∧
      (load_warehouse_data wr).1.length + (load_warehouse_data wr).2 = wr.length ∧
      (load_warehouse_data wr).2 =
        (wr.filter (fun r => r.product_name.isNone)).length := by
  intro rr wr
  refine ⟨?_, rfl, ?_, rfl⟩
  · simp only [load_retail_data, List.length_map]
    exact length_filter_not_add nullCritical rr
  · exact length_filter_not_add (fun r => r.product_name.isNone) wr

/-! ## The dash-qualifier rule (C5) -/

theorem contains_false_of_all {l : List Char} {x : Char}
    (h : ∀ c ∈ l, c ≠ x) : l.contains x = false := by
  induction l with
  | nil => rfl
  | cons a t ih =>
    have ha : (x == a) = false :=
      beq_eq_false_iff_ne.mpr fun hc => h a (List.mem_cons_self a t) hc.symm
    simp only [List.contains_cons, ha, Bool.false_or]
    exact ih fun c hc => h c (List.mem_cons_of_mem a hc)

theorem dropWhile_all_append (w l : List Char) (p : Char → Bool)
    (hw : ∀ c ∈ w, p c = true) : (w ++ l).dropWhile p = l.dropWhile p := by
  induction w with
  | nil => rfl
  | cons a t ih =>
    rw [List.cons_append, List.dropWhile_cons_of_pos (hw a (List.mem_cons_self a t))]
    exact ih fun c hc => hw c (List.mem_cons_of_mem a hc)

theorem dashMatchInfo_cons_none (c : Char) (t : List Char)
    (hs : isSpc c = false) (hd : c ≠ '-') : dashMatchInfo (c :: t) = none := by
  have hneg : ¬ isSpc c = true := by simp [hs]
  simp only [dashMatchInfo, List.dropWhile_cons_of_neg hneg]
  cases t with
  | nil => rfl
  | cons d r =>
    simp only [dashCheck]
    rw [if_neg fun hc => hd hc.1]

theorem dashMatchInfo_no_dash (s : List Char) (h : '-' ∉ s) :
    dashMatchInfo s = none := by
  simp only [dashMatchInfo]
  cases hd : s.dropWhile isSpc with
  | nil => rfl
  | cons c t =>
    cases t with
    | nil => rfl
    | cons d r =>
      have hc : c ∈ s := (List.dropWhile_sublist isSpc).subset (hd ▸ List.mem_cons_self c _)
      simp only [dashCheck]
      refine if_neg fun hcc => ?_
      exact h (hcc.1 ▸ hc)

theorem removeDash_cons_some {c : Char} {t res : List Char}
    (h : dashMatchInfo (c :: t) = some res) : removeDash (c :: t) = res := by
  simp [removeDash, h]

theorem removeDash_cons_none {c : Char} {t : List Char}
    (h : dashMatchInfo (c :: t) = none) : removeDash (c :: t) = c :: removeDash t := by
  simp [removeDash, h]

theorem removeDash_no_dash (l : List Char) (h : '-' ∉ l) : removeDash l = l := by
  induction l with
  | nil => rfl
  | cons c t ih =>
    rw [removeDash_cons_none (dashMatchInfo_no_dash (c :: t) h)]
    exact congrArg (c :: ·) (ih fun hc => h (List.mem_cons_of_mem c hc))

theorem removeDash_strips (pre w rest : List Char) (d : Char)
    (hp : ∀ c ∈ pre, isSpc c = false ∧ c ≠ '-')
    (hw : ∀ c ∈ w, isSpc c = true) (hd : isSpc d = true)
    (hnl : ∀ c ∈ d :: rest, c ≠ '\n') :
    removeDash (pre ++ w ++ '-' :: d :: rest) = pre := by
  induction pre with
  | nil =>
    have hmatch : dashMatchInfo (w ++ '-' :: d :: rest) = some [] := by
      have hdashneg : ¬ isSpc '-' = true := by decide
      have hdw : (w ++ '-' :: d :: rest).dropWhile isSpc = '-' :: d :: rest := by
        rw [dropWhile_all_append w _ isSpc hw, List.dropWhile_cons_of_neg hdashneg]
      have hT : ∀ c ∈ (d :: rest).dropWhile isSpc, c ≠ '\n' := fun c hc =>
        hnl c ((List.dropWhile_sublist isSpc).subset hc)
      simp only [dashMatchInfo, hdw, dashCheck]
      rw [if_pos (And.intro trivial hd),
        contains_false_of_all fun c hc =>
          hT c ((List.dropLast_sublist _).subset hc),
        contains_false_of_all hT]
      simp
    cases w with
    | nil =>
      simp only [List.nil_append] at hmatch ⊢
      exact removeDash_cons_some hmatch
    | cons a w' =>
      simp only [List.cons_append] at hmatch ⊢
      exact removeDash_cons_some hmatch
  | cons p pre' ih =>
    obtain ⟨hps, hpd⟩ := hp p (List.mem_cons_self p pre')
    simp only [List.cons_append]
    rw [removeDash_cons_none (dashMatchInfo_cons_none p _ hps hpd)]
    exact congrArg (p :: ·)
      (ih fun c hc => hp c (List.mem_cons_of_mem p hc))

theorem removeDash_keeps (pre rest : List Char)
    (hp : ∀ c ∈ pre, isSpc c = false ∧ c ≠ '-')
    (hr : ∀ c ∈ rest, isSpc c = false ∧ c ≠ '-') :
    removeDash (pre ++ '-' :: rest) = pre ++ '-' :: rest := by
  induction pre with
  | nil =>
    have hnone : dashMatchInfo ('-' :: rest) = none := by
      have hdashneg : ¬ isSpc '-' = true := by decide
      simp only [dashMatchInfo, List.dropWhile_cons_of_neg hdashneg]
      cases rest with
      | nil => rfl
      | cons d r =>
        simp only [dashCheck]
        refine if_neg fun hc => ?_
        exact absurd hc.2 (by simp [(hr d (List.mem_cons_self d r)).1])
    rw [List.nil_append, removeDash_cons_none hnone]
    exact congrArg ('-' :: ·)
      (removeDash_no_dash rest fun hc => (hr '-' hc).2 rfl)
  | cons p pre' ih =>
    obtain ⟨hps, hpd⟩ := hp p (List.mem_cons_self p pre')
    simp only [List.cons_append]
    rw [removeDash_cons_none (dashMatchInfo_cons_none p _ hps hpd)]
    exact congrArg (p :: ·)
      (ih fun c hc => hp c (List.mem_cons_of_mem p hc))

/-- C5: the dash-qualifier rule of `normalize_product_name`
(ingestion.py line 119).  A literal dash preceded by optional whitespace
and followed by at least one whitespace character removes the dash, the
whitespace around it and the entire remainder; a dash not followed by
whitespace is left alone (hyphenated single tokens are not truncated —
the hyphen itself is later removed by the punctuation filter, keeping the
token whole in the SKU). -/
theorem dash_qualifier_rule :
    (∀ (pre w rest : List Char) (d : Char),
      (∀ c ∈ pre, isSpc c = false ∧ c ≠ '-') →
      (∀ c ∈ w, isSpc c = true) →
      isSpc d = true →
      (∀ c ∈ d :: rest, c ≠ '\n') →
      removeDash (pre ++ w ++ '-' :: d :: rest) = pre) ∧
    (∀ pre rest : List Char,
      (∀ c ∈ pre, isSpc c = false ∧ c ≠ '-') →
      (∀ c ∈ rest, isSpc c = false ∧ c ≠ '-') →
      removeDash (pre ++ '-' :: rest) = pre ++ '-' :: rest) ∧
    (normalize_product_name "Soap - Lemon").1 = "SOAP" ∧
    (normalize_product_name "Wi-Fi Router").1 = "WIFI_ROUTER" :=
  ⟨removeDash_strips, removeDash_keeps, by decide, by decide⟩

/-- Witness for `dash_qualifier_rule` on `"SOAP - LEMON"` and
`"WI-FI"`. -/
theorem dash_qualifier_rule_witness :
    removeDash (cs "SOAP" ++ cs " " ++ '-' :: ' ' :: cs "LEMON") = cs "SOAP" ∧
    removeDash (cs "WI" ++ '-' :: cs "FI") = cs "WI" ++ '-' :: cs "FI" :=
  ⟨dash_qualifier_rule.1 (cs "SOAP") (cs " ") (cs "LEMON") ' '
      (by decide) (by decide) (by decide) (by decide),
    dash_qualifier_rule.2.1 (cs "WI") (cs "FI") (by decide) (by decide)⟩

/-! ## Idempotence of normalization (C4)

The normalized SKU consists of uppercase letters, digits and single
interior underscores.  Re-normalizing the base display name reproduces
the SKU — except when the generic trailing-S strip has left a trailing
underscore, whose corresponding trailing space is removed by the
re-normalization's `strip()`.  The development below characterizes the
shape of `cleanupName`'s output, shows `depluralize` is idempotent, and
shows the cleanup pipeline is the identity on well-shaped base names. -/

theorem isSpc_cases {c : Char} (h : isSpc c = true) :
    c = ' ' ∨ c = '\t' ∨ c = '\n' ∨ c = '\r' ∨ c = Char.ofNat 11 ∨ c = Char.ofNat 12 := by
  simp only [isSpc, Bool.or_eq_true, beq_iff_eq] at h
  tauto

theorem goodCh_bounds {c : Char} (h : goodCh c = true) :
    (65 ≤ c.toNat ∧ c.toNat ≤ 90) ∨ (48 ≤ c.toNat ∧ c.toNat ≤ 57) := by
  simp only [goodCh, Bool.or_eq_true, Bool.and_eq_true, decide_eq_true_eq] at h
  exact h

theorem goodCh_not_spc {c : Char} (h : goodCh c = true) : isSpc c = false := by
  cases hs : isSpc c with
  | false => rfl
  | true =>
    exfalso
    rcases isSpc_cases hs with h1 | h1 | h1 | h1 | h1 | h1 <;> rw [h1] at h <;>
      exact absurd h (by decide)

theorem goodCh_ne_underscore {c : Char} (h : goodCh c = true) : c ≠ '_' := by
  intro hc; rw [hc] at h; exact absurd h (by decide)

theorem goodCh_ne_space {c : Char} (h : goodCh c = true) : c ≠ ' ' := by
  intro hc; rw [hc] at h; exact absurd h (by decide)

theorem goodCh_ne_paren {c : Char} (h : goodCh c = true) : c ≠ '(' := by
  intro hc; rw [hc] at h; exact absurd h (by decide)

theorem goodCh_ne_dash {c : Char} (h : goodCh c = true) : c ≠ '-' := by
  intro hc; rw [hc] at h; exact absurd h (by decide)

theorem lookup_some_mem {m : List (List Char × List Char)} {k v : List Char}
    (h : m.lookup k = some v) : (k, v) ∈ m := by
  induction m with
  | nil => cases h
  | cons p t ih =>
    obtain ⟨a, b⟩ := p
    simp only [List.lookup] at h
    cases hk : k == a with
    | true =>
      rw [hk] at h
      injection h with hbv
      have hka : k = a := eq_of_beq hk
      subst hka
      subst hbv
      exact List.mem_cons_self _ _
    | false =>
      rw [hk] at h
      exact List.mem_cons_of_mem _ (ih h)

theorem lookup_none_of_ne {m : List (List Char × List Char)} {k : List Char}
    (h : ∀ p ∈ m, p.1 ≠ k) : m.lookup k = none := by
  induction m with
  | nil => rfl
  | cons p t ih =>
    obtain ⟨a, b⟩ := p
    have hka : (k == a) = false :=
      beq_eq_false_iff_ne.mpr fun hc => h (a, b) (List.mem_cons_self _ _) hc.symm
    simp only [List.lookup, hka]
    exact ih fun q hq => h q (List.mem_cons_of_mem _ hq)

theorem endsOne_iff {l : List Char} {c : Char} :
    endsOne l c = true ↔ ∃ t, l = t ++ [c] := by
  simp only [endsOne, beq_iff_eq, Option.some.injEq]
  constructor
  · intro h
    have h2 : l.reverse.head? = some c := by rw [List.head?_reverse, h]
    obtain ⟨ys, hys⟩ := List.head?_eq_some_iff.mp h2
    refine ⟨ys.reverse, ?_⟩
    have h3 := congrArg List.reverse hys
    simpa using h3
  · rintro ⟨t, rfl⟩
    simp

theorem endsPair_of_reverse {l rest : List Char} {a b y x : Char}
    (h : l.reverse = y :: x :: rest) : endsPair l a b = (x == a && y == b) := by
  simp only [endsPair]
  rw [h]

/-- Every value of the plural override map is itself a fixed point of
`depluralize`. -/
theorem plural_values_fixed : ∀ p ∈ PLURAL_MAP, depluralize p.2 = p.2 := by decide

/-- Every key of the plural override map ends in `S`. -/
theorem plural_keys_endS : ∀ p ∈ PLURAL_MAP, endsOne p.1 'S' = true := by decide

/-- `depluralize` is idempotent: override values are fixed points, the
unchanged branches are trivially fixed, and a stripped SKU no longer ends
in `S` (its old suffix was a single `S`), so neither the map (whose keys
all end in `S`) nor the generic rule applies again. -/
theorem depluralize_idem (q : List Char) :
    depluralize (depluralize q) = depluralize q := by
  cases hl : PLURAL_MAP.lookup q with
  | some v =>
    have hdq : depluralize q = v := by simp [depluralize, hl]
    rw [hdq]
    exact plural_values_fixed (q, v) (lookup_some_mem hl)
  | none =>
    by_cases hg : (!NO_STRIP_SUFFIXES.contains q
        && !(endsPair q 'S' 'S' || endsPair q 'U' 'S' || endsPair q 'I' 'S')) = true
    · by_cases hb : (endsOne q 'S' && decide (3 < q.length)) = true
      · have hdq : depluralize q = q.dropLast := by
          simp only [depluralize, hl]
          rw [if_pos hg, if_pos hb]
        have hS : endsOne q 'S' = true := (Bool.and_eq_true_iff.mp hb).1
        have hSS : endsPair q 'S' 'S' = false := by
          have h2 := (Bool.and_eq_true_iff.mp hg).2
          rw [Bool.not_eq_true'] at h2
          cases hx : endsPair q 'S' 'S' with
          | false => rfl
          | true => rw [hx] at h2; simp at h2
        obtain ⟨q', rfl⟩ := endsOne_iff.mp hS
        rw [hdq, List.dropLast_concat]
        have hq'S : endsOne q' 'S' = false := by
          cases hq' : endsOne q' 'S' with
          | false => rfl
          | true =>
            obtain ⟨q'', rfl⟩ := endsOne_iff.mp hq'
            have hrev : ((q'' ++ ['S']) ++ ['S']).reverse = 'S' :: 'S' :: q''.reverse := by
              simp
            have hPP := endsPair_of_reverse (a := 'S') (b := 'S') hrev
            rw [hPP] at hSS
            simp at hSS
        have hlk : PLURAL_MAP.lookup q' = none := by
          refine lookup_none_of_ne fun p hp hc => ?_
          have hkS := plural_keys_endS p hp
          rw [hc, hq'S] at hkS
          cases hkS
        simp only [depluralize, hlk]
        by_cases hg' : (!NO_STRIP_SUFFIXES.contains q'
            && !(endsPair q' 'S' 'S' || endsPair q' 'U' 'S' || endsPair q' 'I' 'S')) = true
        · rw [if_pos hg', if_neg (by simp [hq'S])]
        · rw [if_neg hg']
      · have hdq : depluralize q = q := by
          simp only [depluralize, hl]
          rw [if_pos hg, if_neg hb]
        rw [hdq, hdq]
    · have hdq : depluralize q = q := by
        simp only [depluralize, hl]
        rw [if_neg hg]
      rw [hdq, hdq]

theorem chain'_imp_of_mem {α : Type} {R S : α → α → Prop} :
    ∀ l : List α, List.Chain' R l →
      (∀ a ∈ l, ∀ b ∈ l, R a b → S a b) → List.Chain' S l := by
  intro l
  induction l with
  | nil => intro _ _; simp
  | cons a t ih =>
    intro h himp
    cases t with
    | nil => simp
    | cons b t' =>
      rw [List.chain'_cons] at h ⊢
      refine ⟨himp a (List.mem_cons_self _ _)
        b (List.mem_cons_of_mem _ (List.mem_cons_self _ _)) h.1, ?_⟩
      exact ih h.2 fun x hx y hy => himp x (List.mem_cons_of_mem _ hx) y (List.mem_cons_of_mem _ hy)

theorem chain'_dropWhile {α : Type} {R : α → α → Prop} (p : α → Bool) {l : List α}
    (h : List.Chain' R l) : List.Chain' R (l.dropWhile p) := by
  have h2 : List.Chain' R (l.takeWhile p ++ l.dropWhile p) := by
    rwa [List.takeWhile_append_dropWhile]
  exact h2.right_of_append

theorem mem_pstrip {l : List Char} {c : Char} (h : c ∈ pstrip l) : c ∈ l := by
  simp only [pstrip, List.mem_reverse] at h
  have h2 := (List.dropWhile_sublist isSpc).subset h
  rw [List.mem_reverse] at h2
  exact (List.dropWhile_sublist isSpc).subset h2

theorem chain'_pstrip {R : Char → Char → Prop} (hsym : ∀ a b, R a b → R b a)
    {l : List Char} (h : List.Chain' R l) : List.Chain' R (pstrip l) := by
  have h1 := chain'_dropWhile isSpc h
  have h2 : List.Chain' (flip R) (l.dropWhile isSpc).reverse := List.chain'_reverse.mpr h1
  have h3 : List.Chain' R (l.dropWhile isSpc).reverse := h2.imp fun a b hr => hsym b a hr
  have h4 := chain'_dropWhile isSpc h3
  exact List.chain'_reverse.mpr (h4.imp fun a b hr => hsym a b hr)

theorem mem_of_head? {l : List Char} {c : Char} (h : l.head? = some c) : c ∈ l := by
  obtain ⟨ys, hys⟩ := List.head?_eq_some_iff.mp h
  rw [hys]
  exact List.mem_cons_self _ _

theorem mem_of_getLast? {l : List Char} {c : Char} (h : l.getLast? = some c) : c ∈ l := by
  rw [← List.head?_reverse] at h
  rw [← List.mem_reverse]
  exact mem_of_head? h

theorem getLast?_pstrip_not_spc {l : List Char} {c : Char}
    (h : (pstrip l).getLast? = some c) : isSpc c = false := by
  rw [← List.head?_reverse] at h
  have hrev : (pstrip l).reverse = (l.dropWhile isSpc).reverse.dropWhile isSpc := by
    simp [pstrip]
  rw [hrev] at h
  have h2 := List.head?_dropWhile_not isSpc ((l.dropWhile isSpc).reverse)
  rw [h] at h2
  exact h2

theorem head?_pstrip_not_spc {l : List Char} {c : Char}
    (h : (pstrip l).head? = some c) : isSpc c = false := by
  obtain ⟨ys, hys⟩ := List.head?_eq_some_iff.mp h
  have hd : l.dropWhile isSpc =
      pstrip l ++ ((l.dropWhile isSpc).reverse.takeWhile isSpc).reverse := by
    show l.dropWhile isSpc =
      ((l.dropWhile isSpc).reverse.dropWhile isSpc).reverse ++
      ((l.dropWhile isSpc).reverse.takeWhile isSpc).reverse
    have h0 : (l.dropWhile isSpc).reverse =
        (l.dropWhile isSpc).reverse.takeWhile isSpc ++
        (l.dropWhile isSpc).reverse.dropWhile isSpc :=
      (List.takeWhile_append_dropWhile isSpc _).symm
    have h1 := congrArg List.reverse h0
    rw [List.reverse_reverse, List.reverse_append] at h1
    exact h1
  have hh : (l.dropWhile isSpc).head? = some c := by
    rw [hd, hys]
    rfl
  have h2 := List.head?_dropWhile_not isSpc l
  rw [hh] at h2
  exact h2

theorem mem_collapseWs : ∀ (m : List Char), ∀ c ∈ collapseWs m,
    c = ' ' ∨ (c ∈ m ∧ isSpc c = false) := by
  intro m
  induction m with
  | nil => intro c hc; simp [collapseWs] at hc
  | cons a t ih =>
    cases t with
    | nil =>
      intro c hc
      simp only [collapseWs] at hc
      by_cases ha : isSpc a = true
      · rw [if_pos ha] at hc
        left
        simpa using hc
      · rw [if_neg ha] at hc
        right
        have : c = a := by simpa using hc
        subst this
        exact ⟨List.mem_cons_self _ _, by simpa using ha⟩
    | cons b t' =>
      intro c hc
      simp only [collapseWs] at hc
      by_cases hab : (isSpc a && isSpc b) = true
      · rw [if_pos hab] at hc
        rcases ih c hc with h | ⟨h1, h2⟩
        · exact Or.inl h
        · exact Or.inr ⟨List.mem_cons_of_mem _ h1, h2⟩
      · rw [if_neg hab] at hc
        rcases List.mem_cons.mp hc with hh | hmem
        · by_cases ha : isSpc a = true
          · rw [if_pos ha] at hh
            exact Or.inl hh
          · rw [if_neg ha] at hh
            subst hh
            exact Or.inr ⟨List.mem_cons_self _ _, by simpa using ha⟩
        · rcases ih c hmem with h | ⟨h1, h2⟩
          · exact Or.inl h
          · exact Or.inr ⟨List.mem_cons_of_mem _ h1, h2⟩

theorem collapseWs_head_ws : ∀ (t : List Char) (a c : Char),
    (collapseWs (a :: t)).head? = some c → isSpc c = true → isSpc a = true := by
  intro t
  induction t with
  | nil =>
    intro a c h hc
    by_cases ha : isSpc a = true
    · exact ha
    · simp only [collapseWs] at h
      rw [if_neg ha] at h
      have : a = c := by simpa using h
      exact absurd (this ▸ hc) (by simpa using ha)
  | cons b t' ih =>
    intro a c h hc
    simp only [collapseWs] at h
    by_cases hab : (isSpc a && isSpc b) = true
    · exact (Bool.and_eq_true_iff.mp hab).1
    · rw [if_neg hab] at h
      by_cases ha : isSpc a = true
      · exact ha
      · rw [if_neg ha] at h
        have : a = c := by simpa using h
        exact absurd (this ▸ hc) (by simpa using ha)

theorem chain'_collapseWs : ∀ m : List Char,
    List.Chain' (fun a b => ¬(isSpc a = true ∧ isSpc b = true)) (collapseWs m) := by
  intro m
  induction m with
  | nil => simp [collapseWs]
  | cons a t ih =>
    cases t with
    | nil =>
      simp only [collapseWs]
      by_cases ha : isSpc a = true
      · rw [if_pos ha]; simp
      · rw [if_neg ha]; simp
    | cons b t' =>
      simp only [collapseWs]
      by_cases hab : (isSpc a && isSpc b) = true
      · rw [if_pos hab]; exact ih
      · rw [if_neg hab]
        rw [List.chain'_cons']
        refine ⟨?_, ih⟩
        intro y hy hcon
        obtain ⟨h1, h2⟩ := hcon
        have hb : isSpc b = true := collapseWs_head_ws t' b y (Option.mem_def.mp hy) h2
        have ha : isSpc a = true := by
          by_cases ha' : isSpc a = true
          · exact ha'
          · rw [if_neg ha'] at h1
            exact absurd h1 ha'
        exact hab (by simp [ha, hb])

theorem dropWhile_eq_self_of_head {p : Char → Bool} {l : List Char}
    (h : ∀ c, l.head? = some c → p c = false) : l.dropWhile p = l := by
  cases l with
  | nil => rfl
  | cons c t => exact List.dropWhile_cons_of_neg (by simp [h c rfl])

theorem map_id_of_mem {f : Char → Char} : ∀ l : List Char,
    (∀ c ∈ l, f c = c) → l.map f = l := by
  intro l
  induction l with
  | nil => intro _; rfl
  | cons c t ih =>
    intro h
    rw [List.map_cons, h c (List.mem_cons_self _ _),
      ih fun d hd => h d (List.mem_cons_of_mem _ hd)]

theorem collapseWs_eq_self : ∀ l : List Char,
    (∀ c ∈ l, isSpc c = true → c = ' ') →
    List.Chain' (fun a b => ¬(isSpc a = true ∧ isSpc b = true)) l →
    collapseWs l = l := by
  intro l
  induction l with
  | nil => intro _ _; rfl
  | cons a t ih =>
    intro hs hch
    cases t with
    | nil =>
      simp only [collapseWs]
      by_cases ha : isSpc a = true
      · rw [if_pos ha, hs a (List.mem_cons_self _ _) ha]
      · rw [if_neg ha]
    | cons b t' =>
      obtain ⟨hab, hch'⟩ := List.chain'_cons.mp hch
      simp only [collapseWs]
      have hnot : ¬(isSpc a && isSpc b) = true := by
        intro hc
        obtain ⟨h1, h2⟩ := Bool.and_eq_true_iff.mp hc
        exact hab ⟨h1, h2⟩
      rw [if_neg hnot,
        ih (fun c hc hspc => hs c (List.mem_cons_of_mem _ hc) hspc) hch']
      by_cases ha : isSpc a = true
      · rw [if_pos ha, hs a (List.mem_cons_self _ _) ha]
      · rw [if_neg ha]

theorem tryParenMatch_none {s : List Char} (h : '(' ∉ s) : tryParenMatch s = none := by
  simp only [tryParenMatch]
  cases hd : s.dropWhile isSpc with
  | nil => rfl
  | cons c t =>
    have hc : c ∈ s := (List.dropWhile_sublist isSpc).subset (hd ▸ List.mem_cons_self c t)
    simp only [parenOpen]
    refine if_neg fun hcc => ?_
    exact h (hcc ▸ hc)

theorem rpF_no_paren : ∀ (fuel : Nat) (l : List Char), '(' ∉ l → rpF fuel l = l := by
  intro fuel
  induction fuel with
  | zero => intro l _; rfl
  | succ n ih =>
    intro l hl
    cases l with
    | nil => rfl
    | cons c t =>
      simp only [rpF, tryParenMatch_none hl]
      exact congrArg (c :: ·) (ih t fun hc => hl (List.mem_cons_of_mem c hc))

theorem removeParens_no_paren {l : List Char} (h : '(' ∉ l) : removeParens l = l :=
  rpF_no_paren l.length l h

theorem getLast?_map (f : Char → Char) (l : List Char) :
    (l.map f).getLast? = (l.getLast?).map f := by
  rw [← List.head?_reverse, ← List.map_reverse, List.head?_map, List.head?_reverse]

theorem sp2us_good {c : Char} (h : goodCh c = true) : sp2us c = c := by
  simp only [sp2us]
  rw [if_neg]
  simp only [beq_iff_eq]
  exact goodCh_ne_space h

theorem us2sp_good {c : Char} (h : goodCh c = true) : us2sp c = c := by
  simp only [us2sp]
  rw [if_neg]
  simp only [beq_iff_eq]
  exact goodCh_ne_underscore h

theorem sp2us_us2sp {c : Char} (h : goodCh c = true ∨ c = '_') :
    sp2us (us2sp c) = c := by
  rcases h with h | rfl
  · rw [us2sp_good h, sp2us_good h]
  · rfl

theorem spc_of_sp2us_underscore {c : Char} (hcl : goodCh c = true ∨ c = ' ')
    (h : sp2us c = '_') : isSpc c = true := by
  rcases hcl with hg | rfl
  · rw [sp2us_good hg] at h
    exact absurd h (goodCh_ne_underscore hg)
  · rfl

theorem pyUpper_fixed {c : Char} (h : goodCh c = true ∨ c = ' ') :
    pyUpper c = c := by
  rcases h with h | rfl
  · rcases goodCh_bounds h with ⟨h1, h2⟩ | ⟨h1, h2⟩ <;> exact if_neg (by omega)
  · rfl

/-- Shape of a normalized SKU: uppercase letters, digits and underscores
only, no two adjacent underscores, and no leading underscore. -/
def skuShape (s : List Char) : Prop :=
  (∀ c ∈ s, goodCh c = true ∨ c = '_') ∧
  List.Chain' (fun a b => ¬(a = '_' ∧ b = '_')) s ∧
  s.head? ≠ some '_'

/-- Executable check for "no two adjacent underscores". -/
def noAdjUS : List Char → Bool
  | [] => true
  | [_] => true
  | a :: b :: t => !(a == '_' && b == '_') && noAdjUS (b :: t)

theorem noAdjUS_iff_chain' : ∀ l : List Char,
    noAdjUS l = true ↔ List.Chain' (fun a b => ¬(a = '_' ∧ b = '_')) l := by
  intro l
  induction l with
  | nil => simp [noAdjUS]
  | cons a t ih =>
    cases t with
    | nil => simp [noAdjUS]
    | cons b t' =>
      rw [List.chain'_cons, ← ih]
      simp only [noAdjUS, Bool.and_eq_true, Bool.not_eq_true', Bool.and_eq_false_iff,
        beq_eq_false_iff_ne, ne_eq, beq_iff_eq]
      constructor
      · rintro ⟨h1, h2⟩
        refine ⟨fun hc => ?_, h2⟩
        rcases h1 with h | h
        · exact h hc.1
        · exact h hc.2
      · rintro ⟨h1, h2⟩
        refine ⟨?_, h2⟩
        by_cases ha : a = '_'
        · by_cases hb : b = '_'
          · exact absurd ⟨ha, hb⟩ h1
          · exact Or.inr hb
        · exact Or.inl ha

instance : DecidablePred skuShape := fun s =>
  decidable_of_iff (s.all (fun c => goodCh c || c == '_') = true ∧
      noAdjUS s = true ∧ s.head? ≠ some '_') (by
    constructor
    · rintro ⟨h1, h2, h3⟩
      refine ⟨?_, (noAdjUS_iff_chain' s).mp h2, h3⟩
      intro c hc
      have h4 := List.all_eq_true.mp h1 c hc
      simpa [Bool.or_eq_true, beq_iff_eq] using h4
    · rintro ⟨h1, h2, h3⟩
      refine ⟨?_, (noAdjUS_iff_chain' s).mpr h2, h3⟩
      rw [List.all_eq_true]
      intro c hc
      have h4 := h1 c hc
      simpa [Bool.or_eq_true, beq_iff_eq] using h4)

theorem cleanupName_mem (l : List Char) :
    ∀ c ∈ cleanupName l, goodCh c = true ∨ c = ' ' := by
  intro c hc
  simp only [cleanupName] at hc
  have h1 := mem_pstrip hc
  rcases mem_collapseWs _ c h1 with h | ⟨h2, h3⟩
  · exact Or.inr h
  · left
    have h4 := (List.mem_filter.mp h2).2
    simp only [keepCh, Bool.or_eq_true] at h4
    rcases h4 with h | h
    · exact h
    · rw [h3] at h
      cases h

theorem cleanupName_chain (l : List Char) :
    List.Chain' (fun a b => ¬(isSpc a = true ∧ isSpc b = true)) (cleanupName l) := by
  simp only [cleanupName]
  exact chain'_pstrip (fun a b h hc => h ⟨hc.2, hc.1⟩) (chain'_collapseWs _)

theorem cleanupName_head {l : List Char} {c : Char}
    (h : (cleanupName l).head? = some c) : isSpc c = false := by
  simp only [cleanupName] at h
  exact head?_pstrip_not_spc h

theorem cleanupName_last {l : List Char} {c : Char}
    (h : (cleanupName l).getLast? = some c) : isSpc c = false := by
  simp only [cleanupName] at h
  exact getLast?_pstrip_not_spc h

theorem skuShape_cleanup (l : List Char) : skuShape ((cleanupName l).map sp2us) := by
  refine ⟨?_, ?_, ?_⟩
  · intro c hc
    rw [List.mem_map] at hc
    obtain ⟨c₀, hc₀, rfl⟩ := hc
    rcases cleanupName_mem l c₀ hc₀ with h | rfl
    · rw [sp2us_good h]
      exact Or.inl h
    · exact Or.inr rfl
  · rw [List.chain'_map]
    refine chain'_imp_of_mem _ (cleanupName_chain l) ?_
    intro a ha b hb hR hcon
    obtain ⟨h1, h2⟩ := hcon
    exact hR ⟨spc_of_sp2us_underscore (cleanupName_mem l a ha) h1,
      spc_of_sp2us_underscore (cleanupName_mem l b hb) h2⟩
  · rw [List.head?_map]
    intro hc
    cases hp : (cleanupName l).head? with
    | none => rw [hp] at hc; cases hc
    | some c₀ =>
      rw [hp] at hc
      have hc' : sp2us c₀ = '_' := by simpa using hc
      have hmem : c₀ ∈ cleanupName l := mem_of_head? hp
      have hspc := spc_of_sp2us_underscore (cleanupName_mem l c₀ hmem) hc'
      rw [cleanupName_head hp] at hspc
      cases hspc

/-- Values of the plural override map have normalized-SKU shape. -/
theorem plural_values_shape : ∀ p ∈ PLURAL_MAP, skuShape p.2 := by decide

theorem depluralize_cases (q : List Char) :
    depluralize q = q ∨
    (∃ v, PLURAL_MAP.lookup q = some v ∧ depluralize q = v) ∨
    (∃ q', q = q' ++ ['S'] ∧ depluralize q = q') := by
  cases hl : PLURAL_MAP.lookup q with
  | some v =>
    exact Or.inr (Or.inl ⟨v, rfl, by simp [depluralize, hl]⟩)
  | none =>
    by_cases hg : (!NO_STRIP_SUFFIXES.contains q
        && !(endsPair q 'S' 'S' || endsPair q 'U' 'S' || endsPair q 'I' 'S')) = true
    · by_cases hb : (endsOne q 'S' && decide (3 < q.length)) = true
      · obtain ⟨hS, _⟩ := Bool.and_eq_true_iff.mp hb
        obtain ⟨q', rfl⟩ := endsOne_iff.mp hS
        refine Or.inr (Or.inr ⟨q', rfl, ?_⟩)
        simp only [depluralize, hl]
        rw [if_pos hg, if_pos hb, List.dropLast_concat]
      · refine Or.inl ?_
        simp only [depluralize, hl]
        rw [if_pos hg, if_neg hb]
    · refine Or.inl ?_
      simp only [depluralize, hl]
      rw [if_neg hg]

theorem skuShape_depluralize {q : List Char} (h : skuShape q) :
    skuShape (depluralize q) := by
  rcases depluralize_cases q with hq | ⟨v, hv, hq⟩ | ⟨q', rfl, hq⟩
  · rw [hq]; exact h
  · rw [hq]
    exact plural_values_shape (q, v) (lookup_some_mem hv)
  · rw [hq]
    obtain ⟨hmem, hch, hhd⟩ := h
    refine ⟨fun c hc => hmem c (List.mem_append_left _ hc), hch.left_of_append, ?_⟩
    cases q' with
    | nil => simp
    | cons c t =>
      intro hc
      apply hhd
      rw [List.cons_append, List.head?_cons]
      simpa [List.head?_cons] using hc

theorem cleanup_fixed_on_base {s : List Char} (hsh : skuShape s)
    (hlast : s.getLast? ≠ some '_') :
    cleanupName (s.map us2sp) = s.map us2sp ∧ (s.map us2sp).map sp2us = s := by
  obtain ⟨hmem, hch, hhd⟩ := hsh
  have hbmem : ∀ c ∈ s.map us2sp, goodCh c = true ∨ c = ' ' := by
    intro c hc
    rw [List.mem_map] at hc
    obtain ⟨c₀, hc₀, rfl⟩ := hc
    rcases hmem c₀ hc₀ with h | rfl
    · rw [us2sp_good h]; exact Or.inl h
    · exact Or.inr rfl
  have hbhead : ∀ c, (s.map us2sp).head? = some c → isSpc c = false := by
    intro c hc
    rw [List.head?_map] at hc
    cases hp : s.head? with
    | none => rw [hp] at hc; cases hc
    | some c₀ =>
      rw [hp] at hc
      have hc' : us2sp c₀ = c := by simpa using hc
      rcases hmem c₀ (mem_of_head? hp) with h | rfl
      · rw [us2sp_good h] at hc'; subst hc'; exact goodCh_not_spc h
      · exact absurd hp hhd
  have hblast : ∀ c, (s.map us2sp).getLast? = some c → isSpc c = false := by
    intro c hc
    rw [getLast?_map] at hc
    cases hp : s.getLast? with
    | none => rw [hp] at hc; cases hc
    | some c₀ =>
      rw [hp] at hc
      have hc' : us2sp c₀ = c := by simpa using hc
      rcases hmem c₀ (mem_of_getLast? hp) with h | rfl
      · rw [us2sp_good h] at hc'; subst hc'; exact goodCh_not_spc h
      · exact absurd hp hlast
  have hbch : List.Chain' (fun a b => ¬(isSpc a = true ∧ isSpc b = true)) (s.map us2sp) := by
    rw [List.chain'_map]
    refine chain'_imp_of_mem _ hch ?_
    intro a ha b hb hR hcon
    obtain ⟨h1, h2⟩ := hcon
    have ha' : a = '_' := by
      rcases hmem a ha with h | h
      · rw [us2sp_good h, goodCh_not_spc h] at h1; cases h1
      · exact h
    have hb' : b = '_' := by
      rcases hmem b hb with h | h
      · rw [us2sp_good h, goodCh_not_spc h] at h2; cases h2
      · exact h
    exact hR ⟨ha', hb'⟩
  have hstrip : pstrip (s.map us2sp) = s.map us2sp := by
    have h1 : (s.map us2sp).dropWhile isSpc = s.map us2sp :=
      dropWhile_eq_self_of_head hbhead
    have h2 : (s.map us2sp).reverse.dropWhile isSpc = (s.map us2sp).reverse := by
      refine dropWhile_eq_self_of_head ?_
      intro c hc
      rw [List.head?_reverse] at hc
      exact hblast c hc
    simp only [pstrip, h1, h2, List.reverse_reverse]
  have hupper : (s.map us2sp).map pyUpper = s.map us2sp :=
    map_id_of_mem _ fun c hc => pyUpper_fixed (hbmem c hc)
  have hparen : removeParens (s.map us2sp) = s.map us2sp := by
    refine removeParens_no_paren fun hc => ?_
    rcases hbmem _ hc with h | h
    · exact goodCh_ne_paren h rfl
    · exact absurd h (by decide)
  have hdash : removeDash (s.map us2sp) = s.map us2sp := by
    refine removeDash_no_dash _ fun hc => ?_
    rcases hbmem _ hc with h | h
    · exact goodCh_ne_dash h rfl
    · exact absurd h (by decide)
  have hfilter : (s.map us2sp).filter keepCh = s.map us2sp := by
    rw [List.filter_eq_self]
    intro c hc
    rcases hbmem c hc with h | rfl
    · simp [keepCh, h]
    · decide
  have hcollapse : collapseWs (s.map us2sp) = s.map us2sp := by
    refine collapseWs_eq_self _ ?_ hbch
    intro c hc hspc
    rcases hbmem c hc with h | rfl
    · rw [goodCh_not_spc h] at hspc; cases hspc
    · rfl
  constructor
  · simp only [cleanupName, hstrip, hupper, hparen, hdash, hfilter, hcollapse]
  · rw [List.map_map]
    exact map_id_of_mem s fun c hc => sp2us_us2sp (hmem c hc)

theorem normalizeCore_fst (l : List Char) :
    (normalizeCore l).1 = depluralize ((cleanupName l).map sp2us) := by
  simp only [normalizeCore]

/-- C4 (amended): normalization is idempotent on every input whose
normalized SKU does not end in an underscore — re-normalizing the base
display name reproduces the same `(sku, base_name)` pair.  (A trailing
underscore arises only when the generic rule strips the `S` of a SKU
ending in `"_S"`; the base name then carries a trailing space that the
re-normalization's `strip()` removes, see
`normalize_idempotent_counterexample`.) -/
theorem normalize_idempotent_on_underscore_free :
    ∀ x : String, (normalize_product_name x).1.data.getLast? ≠ some '_' →
      normalize_product_name ((normalize_product_name x).2) = normalize_product_name x := by
  intro x hx
  rw [normalize_product_name_fst, data_mk, normalizeCore_fst] at hx
  have hshape := skuShape_depluralize (skuShape_cleanup x.data)
  obtain ⟨hfix, hback⟩ := cleanup_fixed_on_base hshape hx
  have hfst : (normalizeCore
      ((depluralize ((cleanupName x.data).map sp2us)).map us2sp)).1
      = (normalizeCore x.data).1 := by
    rw [normalizeCore_fst, hfix, hback, normalizeCore_fst]
    exact depluralize_idem _
  have hcore : normalizeCore
      ((depluralize ((cleanupName x.data).map sp2us)).map us2sp)
      = normalizeCore x.data := by
    refine Prod.ext hfst ?_
    rw [normalizeCore_snd_eq, normalizeCore_snd_eq, hfst]
  have harg : ((normalize_product_name x).2).data
      = (depluralize ((cleanupName x.data).map sp2us)).map us2sp := by
    rw [normalize_product_name_snd, data_mk, normalizeCore_snd_eq, normalizeCore_fst]
  calc normalize_product_name ((normalize_product_name x).2)
      = (String.mk (normalizeCore ((normalize_product_name x).2).data).1,
         String.mk (normalizeCore ((normalize_product_name x).2).data).2) := rfl
    _ = (String.mk (normalizeCore x.data).1, String.mk (normalizeCore x.data).2) := by
        rw [harg, hcore]
    _ = normalize_product_name x := rfl

/-- Witness for `normalize_idempotent_on_underscore_free` at
`"Egg (Turkey)"`. -/
theorem normalize_idempotent_on_underscore_free_witness :
    (normalize_product_name "Egg (Turkey)").1.data.getLast? ≠ some '_' ∧
    normalize_product_name ((normalize_product_name "Egg (Turkey)").2) =
      normalize_product_name "Egg (Turkey)" :=
  ⟨by decide, normalize_idempotent_on_underscore_free "Egg (Turkey)" (by decide)⟩
